import Mathlib

/-!
Verification of the helper module `mag_annotator/utils.py` of the DRAM
repository.  Python strings are modelled as `List Char` (`PyStr`); pandas
tables and rows are modelled as structures with one optional column per
recognized column name, where an absent column is `none` and a missing (NaN)
cell is an inner `none`.  Python exceptions are modelled with `Except PyErr`.
The regular expressions used by the identifier extractors are embedded as
token lists interpreted by a backtracking matcher (`matchToks`) with Python's
leftmost, greedy/lazy semantics, and `findAll` mirrors `re.findall`'s
non-overlapping left-to-right scan.
-/

namespace DRAM

/-- Python `str` as a list of characters. -/
abbrev PyStr := List Char

/-- The Python exceptions that the modelled code can raise. -/
inductive PyErr : Type
  | nameError
  | indexError
  | valueError
  | osError
  | calledProcessError (returncode : Int)
  | subprocessError (msg : String)
  deriving DecidableEq

/-- Python slicing `x[1:-1]` (used on regex matches, always of length at least 2). -/
def strip1 (l : PyStr) : PyStr := (l.drop 1).dropLast

/-- Python slicing `x[a:b]` for nonnegative bounds. -/
def pySlice (l : PyStr) (a b : Nat) : PyStr := (l.take b).drop a

/-- Python `lst[0]` on the result of `str.split`, which is always non-empty. -/
def pyFirst (ls : List PyStr) : PyStr := ls.headD []

/-- Python `str.strip()`: remove leading and trailing whitespace. -/
def pyStrip (s : PyStr) : PyStr :=
  ((s.dropWhile Char.isWhitespace).reverse.dropWhile Char.isWhitespace).reverse

/-- Python `text.startswith(p)`. -/
def py_startswith (t p : PyStr) : Bool := p.isPrefixOf t

/-- Python `text.endswith(s)`. -/
def py_endswith (t s : PyStr) : Bool := s.isSuffixOf t

/-- Worker for Python `str.split(sep)` with a non-empty separator: scan left to
right, cutting at each non-overlapping occurrence of `sep`.  `acc` holds the
reversed characters of the current field; `fuel` bounds the recursion and is
at least the length of the remaining input at every call, so the fuel-exhausted
arm is never reached from `pySplit`. -/
def pySplitGo (sep : PyStr) : Nat → PyStr → PyStr → List PyStr
  | _, acc, [] => [acc.reverse]
  | 0, acc, s => [acc.reverse ++ s]
  | fuel + 1, acc, c :: s =>
    if sep.isPrefixOf (c :: s) then
      acc.reverse :: pySplitGo sep fuel [] (s.drop (sep.length - 1))
    else
      pySplitGo sep fuel (c :: acc) s

/-- Python `s.split(sep)` for a non-empty separator `sep`. -/
def pySplit (sep s : PyStr) : List PyStr := pySplitGo sep s.length [] s

/-- One token of a (linear) regular expression: a single-character class, a
greedy star over a class, or a lazy star over a class.  These suffice for all
four patterns used in `utils.py`. -/
inductive Tok : Type
  | one (p : Char → Bool)
  | star (p : Char → Bool)
  | starL (p : Char → Bool)

/-- Greedy star over class `p` followed by continuation `k`: consume as many
`p`-characters as possible and back off one at a time until `k` succeeds,
exactly the backtracking order of a greedy `p*` in Python's `re`. -/
def matchStar (p : Char → Bool) (k : PyStr → Option Nat) : PyStr → Option Nat
  | [] => k []
  | c :: s =>
    if p c then
      match matchStar p k s with
      | some n => some (n + 1)
      | none => k (c :: s)
    else k (c :: s)

/-- Lazy star over class `p` followed by continuation `k`: try the continuation
first and consume a character only on failure, the backtracking order of a lazy
`p*?` in Python's `re`. -/
def matchStarL (p : Char → Bool) (k : PyStr → Option Nat) : PyStr → Option Nat
  | [] => k []
  | c :: s =>
    match k (c :: s) with
    | some n => some n
    | none => if p c then (matchStarL p k s).map (· + 1) else none

/-- Match a token list at the start of the input, returning the number of
characters consumed by the first match in Python's backtracking order. -/
def matchToks : List Tok → PyStr → Option Nat
  | [], _ => some 0
  | Tok.one p :: ts, s =>
    match s with
    | [] => none
    | c :: s2 => if p c then (matchToks ts s2).map (· + 1) else none
  | Tok.star p :: ts, s => matchStar p (matchToks ts) s
  | Tok.starL p :: ts, s => matchStarL p (matchToks ts) s

/-- Worker for `re.findall`: scan left to right; at a match of positive length
emit it and resume after it, otherwise advance one character.  None of the four
patterns used in `utils.py` can match the empty string (each contains a literal
bracket), so the zero-length arm of the match is merged into the advance arm.
`fuel` is at least the length of the remaining input at every call from
`findAll`, so the fuel-exhausted arm is never reached. -/
def findAllGo (toks : List Tok) : Nat → PyStr → List PyStr
  | _, [] => []
  | 0, _ => []
  | fuel + 1, c :: s =>
    match matchToks toks (c :: s) with
    | some (n + 1) => (c :: s).take (n + 1) :: findAllGo toks fuel ((c :: s).drop (n + 1))
    | _ => findAllGo toks fuel s

/-- Python `re.findall(pattern, s)` for the linear patterns of `utils.py`. -/
def findAll (toks : List Tok) (s : PyStr) : List PyStr := findAllGo toks s.length s

/-- Character class of a literal character. -/
def lit (c : Char) : Tok := Tok.one (· == c)

/-- Python `\d` restricted to ASCII digits, as all identifiers here are ASCII. -/
def isDigitCh (c : Char) : Bool := c.isDigit

/-- Python `.` without `re.DOTALL`: any character except a newline. -/
def anyCh (c : Char) : Bool := c != '\n'

/-- Python `[A-Z]`. -/
def isUpperAZ (c : Char) : Bool := 'A' ≤ c && c ≤ 'Z'

/-- Python `[\d+\.]`. -/
def isCazyEcCh (c : Char) : Bool := c.isDigit || c == '+' || c == '.'

/-- Python `[\d-]`. -/
def isCazyEcEndCh (c : Char) : Bool := c.isDigit || c == '-'

/-- The pattern `\[EC:\d*.\d*.\d*.\d*\]` of the `kegg_hit` branch.  Note that
the three dots are unescaped, so they are the any-character class. -/
def ecToks : List Tok :=
  [lit '[', lit 'E', lit 'C', lit ':',
   Tok.star isDigitCh, Tok.one anyCh,
   Tok.star isDigitCh, Tok.one anyCh,
   Tok.star isDigitCh, Tok.one anyCh,
   Tok.star isDigitCh, lit ']']

/-- The pattern `\(EC [\d+\.]+[\d-]\)` of the new-format `cazy_hits` branch
(`+` is a single-character token followed by a greedy star). -/
def cazyEcToks : List Tok :=
  [lit '(', lit 'E', lit 'C', lit ' ',
   Tok.one isCazyEcCh, Tok.star isCazyEcCh, Tok.one isCazyEcEndCh, lit ')']

/-- The pattern `\[[A-Z]*\d*?\]` of the legacy `cazy_hits` branch. -/
def cazyOldToks : List Tok :=
  [lit '[', Tok.star isUpperAZ, Tok.starL isDigitCh, lit ']']

/-- The pattern `\[PF\d\d\d\d\d.\d*\]` of the `pfam_hits` branch.  The dot
after the fifth digit is unescaped, so it is the any-character class. -/
def pfamToks : List Tok :=
  [lit '[', lit 'P', lit 'F',
   Tok.one isDigitCh, Tok.one isDigitCh, Tok.one isDigitCh, Tok.one isDigitCh, Tok.one isDigitCh,
   Tok.one anyCh, Tok.star isDigitCh, lit ']']

/-- First-seen-order deduplication worker (`seen` accumulates emitted values). -/
def dedupGo {α : Type} [DecidableEq α] (seen : List α) : List α → List α
  | [] => []
  | x :: xs => if x ∈ seen then dedupGo seen xs else x :: dedupGo (x :: seen) xs

/-- Iterating a Python `set(lst)` built from a list of short strings, modelled
as first-insertion order (CPython's iteration order is implementation defined;
no verified property depends on this order). -/
def pySetList (l : List PyStr) : List PyStr := dedupGo [] l

/-- A pandas annotation table: each recognized column is either absent
(`none`) or a list of cells, each cell either missing/NaN (`none`) or a
string value.  `'col' in frame` is presence, `frame.col.dropna()` keeps the
`some` cells in order. -/
structure Frame : Type where
  kegg_genes_id : Option (List (Option PyStr))
  ko_id : Option (List (Option PyStr))
  kegg_id : Option (List (Option PyStr))
  kegg_hit : Option (List (Option PyStr))
  peptidase_family : Option (List (Option PyStr))
  cazy_id : Option (List (Option PyStr))
  cazy_hits : Option (List (Option PyStr))
  pfam_hits : Option (List (Option PyStr))

/-- A single pandas row: each recognized column is absent (`none`), present
with a missing/NaN value (`some none`), or present with a string value. -/
structure Row : Type where
  kegg_genes_id : Option (Option PyStr)
  ko_id : Option (Option PyStr)
  kegg_id : Option (Option PyStr)
  kegg_hit : Option (Option PyStr)
  peptidase_family : Option (Option PyStr)
  cazy_id : Option (Option PyStr)
  cazy_hits : Option (Option PyStr)
  pfam_hits : Option (Option PyStr)

/-- The values a column contributes: nothing when the column is absent
(`if 'col' in frame`), otherwise its non-NaN cells (`frame.col.dropna()`). -/
def colVals (col : Option (List (Option PyStr))) : List PyStr :=
  (col.getD []).filterMap id

/-- `[j.strip() for i in col.dropna() for j in i.split(sep)]`. -/
def splitStripIds (sep : PyStr) (col : Option (List (Option PyStr))) : List PyStr :=
  (colVals col).flatMap (fun i => (pySplit sep i).map pyStrip)

/-- The `kegg_hit` contribution:
`[i[1:-1] for i in re.findall(r'\[EC:\d*.\d*.\d*.\d*\]', kegg_hit)]`
per non-NaN cell. -/
def keggHitIds (frame : Frame) : List PyStr :=
  (colVals frame.kegg_hit).flatMap (fun kegg_hit => (findAll ecToks kegg_hit).map strip1)

/-- The `cazy_id` contribution:
`[j for i in ... for j in set([k.split('_')[0] for k in i.split('; ')])]`. -/
def cazyIdIds (frame : Frame) : List PyStr :=
  (colVals frame.cazy_id).flatMap
    (fun i => pySetList ((pySplit [';', ' '] i).map (fun k => pyFirst (pySplit ['_'] k))))

/-- The new-format `cazy_hits` contribution: for each regex match `j` of
`\(EC [\d+\.]+[\d-]\)`, the string `f"{j[1:3]}:{j[4:-1]}"`. -/
def cazyEcIds (frame : Frame) : List PyStr :=
  (colVals frame.cazy_hits).flatMap
    (fun i => (findAll cazyEcToks i).map
      (fun j => pySlice j 1 3 ++ ':' :: pySlice j 4 (j.length - 1)))

/-- The legacy `cazy_hits` contribution: for each regex match `i` of
`\[[A-Z]*\d*?\]`, the string `i[1:-1].split('_')[0]`. -/
def cazyOldIds (frame : Frame) : List PyStr :=
  (colVals frame.cazy_hits).flatMap
    (fun cazy_hit => (findAll cazyOldToks cazy_hit).map
      (fun i => pyFirst (pySplit ['_'] (strip1 i))))

/-- The `pfam_hits` contribution: for each regex match `j` of
`\[PF\d\d\d\d\d.\d*\]`, the string `j[1:-1].split('.')[0]`. -/
def pfamIds (frame : Frame) : List PyStr :=
  (colVals frame.pfam_hits).flatMap
    (fun i => (findAll pfamToks i).map (fun j => pyFirst (pySplit ['.'] (strip1 j))))

/-- `get_ids_from_annotation(frame)` (utils.py lines 103-137): the `id_list`
accumulated over the eight column branches in source order.  The returned
`Counter(id_list)` is modelled by the list itself: its counts are
`List.count` and its key set is list membership. -/
def get_ids_from_annotation (frame : Frame) : List PyStr :=
  splitStripIds [','] frame.kegg_genes_id
    ++ splitStripIds [','] frame.ko_id
    ++ splitStripIds [','] frame.kegg_id
    ++ keggHitIds frame
    ++ splitStripIds [';'] frame.peptidase_family
    ++ cazyIdIds frame
    ++ cazyEcIds frame
    ++ cazyOldIds frame
    ++ pfamIds frame

/-- `'col' in row and not pd.isna(row['col'])`: the string value when the
column is present with a non-NaN cell. -/
def cellVal : Option (Option PyStr) → Option PyStr
  | some (some v) => some v
  | _ => none

/-- `get_ids_from_row(row)` (utils.py lines 141-170).  The list `+=` on the
`kegg_genes_id` string extends `id_list` with its characters (Python iterates
a string by character).  The `cazy_id` branch evaluates the undefined global
name `cazy_id` (`row[cazy_id]`), and the `cazy_hits` branch, after line 163,
iterates the undefined name `frame` on line 164; both raise `NameError` as
soon as the column is present with a non-NaN value.  The returned
`set(id_list)` is modelled by the list itself, compared by membership. -/
def get_ids_from_row (row : Row) : Except PyErr (List PyStr) :=
  let l1 := match cellVal row.kegg_genes_id with
    | some v => v.map (fun c => [c])
    | none => []
  let l2 := match cellVal row.ko_id with
    | some v => pySplit [','] v
    | none => []
  let l3 := match cellVal row.kegg_id with
    | some v => pySplit [','] v
    | none => []
  let l4 := match cellVal row.kegg_hit with
    | some v => (findAll ecToks v).map strip1
    | none => []
  let l5 := match cellVal row.peptidase_family with
    | some v => pySplit [';'] v
    | none => []
  match cellVal row.cazy_id with
  | some _ => Except.error PyErr.nameError
  | none =>
    match cellVal row.cazy_hits with
    | some _ => Except.error PyErr.nameError
    | none =>
      let l8 := match cellVal row.pfam_hits with
        | some v => (findAll pfamToks v).map (fun j => pyFirst (pySplit ['.'] (strip1 j)))
        | none => []
      Except.ok (l1 ++ l2 ++ l3 ++ l4 ++ l5 ++ l8)

/-- The one-row table holding exactly the given row. -/
def rowToFrame (row : Row) : Frame where
  kegg_genes_id := row.kegg_genes_id.map (fun v => [v])
  ko_id := row.ko_id.map (fun v => [v])
  kegg_id := row.kegg_id.map (fun v => [v])
  kegg_hit := row.kegg_hit.map (fun v => [v])
  peptidase_family := row.peptidase_family.map (fun v => [v])
  cazy_id := row.cazy_id.map (fun v => [v])
  cazy_hits := row.cazy_hits.map (fun v => [v])
  pfam_hits := row.pfam_hits.map (fun v => [v])

/-- Split a file's contents into its first line (with its newline, as Python's
`readline()` returns it) and the remainder (what `f.read()` returns after one
`readline()`). -/
def firstLineSplit : PyStr → PyStr × PyStr
  | [] => ([], [])
  | c :: rest =>
    if c = '\n' then (['\n'], rest)
    else ((c :: (firstLineSplit rest).1), (firstLineSplit rest).2)

/-- The outcome of `merge_files`: the contents written to the output file
(which is opened for writing, hence truncated, before anything else) and the
exception, if any, raised midway. -/
structure MergeResult : Type where
  written : PyStr
  error : Option PyErr
  deriving DecidableEq

/-- `merge_files(files_to_merge, outfile, has_header)` (utils.py lines 91-100),
with files given by their contents.  With `has_header`, the first line of
`files_to_merge[0]` is written once, then every file is appended with its
first line stripped; indexing `files_to_merge[0]` on an empty list raises
`IndexError` after the output was already truncated. -/
def merge_files (files_to_merge : List PyStr) (has_header : Bool) : MergeResult :=
  if has_header then
    match files_to_merge with
    | [] => ⟨[], some PyErr.indexError⟩
    | f0 :: rest =>
      ⟨(firstLineSplit f0).1
        ++ ((f0 :: rest).map (fun f => (firstLineSplit f).2)).flatten, none⟩
  else ⟨files_to_merge.flatten, none⟩

/-- The result of `subprocess.run`: a completed process with its exit code and
captured output, as `text=True` returns strings. -/
structure CompletedProcess : Type where
  returncode : Int
  stdout : String
  stderr : String

/-- The behaviour of the external world for one invocation: the process either
runs to completion or the invocation itself fails to launch (an `OSError`
such as `FileNotFoundError`). -/
inductive ProcBehavior : Type
  | completes (cp : CompletedProcess)
  | launchFail

/-- `subprocess.run(command, check=check, ...)`: a launch failure raises an
`OSError`; with `check` set, a non-zero exit raises `CalledProcessError`. -/
def subprocess_run (beh : ProcBehavior) (check : Bool) : Except PyErr CompletedProcess :=
  match beh with
  | ProcBehavior.launchFail => Except.error PyErr.osError
  | ProcBehavior.completes cp =>
    if check ∧ cp.returncode ≠ 0 then Except.error (PyErr.calledProcessError cp.returncode)
    else Except.ok cp

/-- One log record emitted by `run_process`, keeping the data interpolated
into the message so that "includes the command and the stderr" is checkable. -/
inductive LogEntry : Type
  | criticalCmdError (command : List String)
  | criticalCmdStderr (command : List String) (stderr : String)
  | debugStdout (stdout : String)

/-- The observable outcome of one `run_process` call: the log records in
order, the optional `(path, contents)` written for `save_output`, and the
returned value or the propagated exception. -/
structure RunResult : Type where
  log : List LogEntry
  saved : Option (String × String)
  ret : Except PyErr (Option String)

/-- `run_process(command, logger, shell, capture_stdout, save_output, check,
stop_on_error, verbose)` (utils.py lines 43-67).  Only `CalledProcessError`
is caught: a launch failure propagates before any logging.  In the caught
branch with `stop_on_error` disabled, control falls through to
`results.returncode` with `results` unbound, a `NameError`.  On a non-zero
exit code the command and captured stderr are logged at critical level (plus
`results.stdout` at debug level), then `SubprocessError` is raised when
`stop_on_error` is set; otherwise execution continues to the `save_output`
write and the optional return of stdout. -/
def run_process (beh : ProcBehavior) (command : List String) (shell : Bool)
    (capture_stdout : Bool) (save_output : Option String) (check : Bool)
    (stop_on_error : Bool) : RunResult :=
  match subprocess_run beh check with
  | Except.error (PyErr.calledProcessError rc) =>
    if stop_on_error then
      ⟨[LogEntry.criticalCmdError command], none, Except.error (PyErr.calledProcessError rc)⟩
    else
      ⟨[LogEntry.criticalCmdError command], none, Except.error PyErr.nameError⟩
  | Except.error e => ⟨[], none, Except.error e⟩
  | Except.ok results =>
    if results.returncode ≠ 0 then
      if stop_on_error then
        ⟨[LogEntry.criticalCmdStderr command results.stderr, LogEntry.debugStdout results.stdout],
          none,
          Except.error (PyErr.subprocessError (" ".intercalate command))⟩
      else
        ⟨[LogEntry.criticalCmdStderr command results.stderr, LogEntry.debugStdout results.stdout],
          save_output.map (fun p => (p, results.stdout)),
          Except.ok (if capture_stdout then some results.stdout else none)⟩
    else
      ⟨[], save_output.map (fun p => (p, results.stdout)),
        Except.ok (if capture_stdout then some results.stdout else none)⟩

/-- Worker for `divide_chunks`: emit `l[i:i+n]` slices left to right.  `fuel`
is at least the length of the remaining input at every call from
`divide_chunks` (each step removes at least one element when `1 ≤ n`), so the
fuel-exhausted arm is never reached there. -/
def chunksGo {α : Type} (n : Nat) : Nat → List α → List (List α)
  | _, [] => []
  | 0, _ => []
  | fuel + 1, x :: xs => (x :: xs).take n :: chunksGo n fuel ((x :: xs).drop n)

/-- `divide_chunks(l, n)` (utils.py lines 173-176), as the list of yielded
chunks.  `range(0, len(l), 0)` raises `ValueError` in Python. -/
def divide_chunks {α : Type} (l : List α) (n : Nat) : Except PyErr (List (List α)) :=
  if n = 0 then Except.error PyErr.valueError
  else Except.ok (chunksGo n l.length l)

/-- `remove_prefix(text, prefix)` (utils.py lines 179-182):
`text[len(prefix):]` when `text.startswith(prefix)`, else `text`. -/
def remove_prefix (text pre : PyStr) : PyStr :=
  if py_startswith text pre then text.drop pre.length else text

/-- `remove_suffix(text, suffix)` (utils.py lines 185-188):
`text[:-1*len(suffix)]` when `text.endswith(suffix)`, else `text`.  Note the
Python slice: when the suffix is empty, `text[:0]` is the empty string; when
it is not, `text[:-k]` is the first `len(text) - k` characters. -/
def remove_suffix (text suf : PyStr) : PyStr :=
  if py_endswith text suf then
    if suf.length = 0 then [] else text.take (text.length - suf.length)
  else text

/-- Worker for `get_ordered_uniques`.  Python evaluates, per element `x` of
the input, `not (x in seen or seen_add(x) or pd.isna(x))`: a member of `seen`
is dropped; a new element is first added to `seen` by the short-circuited
`seen_add(x)` (which returns `None`, falsy) and then dropped anyway when
`pd.isna(x)` is truthy.  NaN membership in the Python set tests identity
before equality; since a NaN element is dropped whether or not the membership
test succeeds, modelling membership with decidable equality does not change
the output. -/
def gouGo {α : Type} [DecidableEq α] (isna : α → Bool) (seen : List α) : List α → List α
  | [] => []
  | x :: xs =>
    if x ∈ seen then gouGo isna seen xs
    else if isna x then gouGo isna (x :: seen) xs
    else x :: gouGo isna (x :: seen) xs

/-- `get_ordered_uniques(seq)` (utils.py lines 191-194), parametrized by the
element type and its `pd.isna` predicate. -/
def get_ordered_uniques {α : Type} [DecidableEq α] (isna : α → Bool) (seq : List α) : List α :=
  gouGo isna [] seq

/-- Modelled from the spec: the shape `EC:<digits>.<digits>.<digits>.<digits>`
that claim C3 asserts for every identifier extracted from `kegg_hit` — the
prefix `EC:` followed by exactly four non-empty digit runs separated by
literal dots. -/
def spec_EC_id (x : PyStr) : Bool :=
  py_startswith x ['E', 'C', ':'] &&
    (let parts := pySplit ['.'] (x.drop 3)
     parts.length == 4 && parts.all (fun p => !p.isEmpty && p.all Char.isDigit))

/-- Modelled from the spec (claim C4's wording): unique elements in first-seen
order after removing the NaN-like values — the deduplication of the
NaN-filtered input. -/
def orderedUniquesSpec {α : Type} [DecidableEq α] (isna : α → Bool) (seq : List α) : List α :=
  dedupGo [] (seq.filter (fun x => !isna x))

/-- Whether a row cell is present with a non-NaN value. -/
def hasVal (o : Option (Option PyStr)) : Bool :=
  match o with
  | some (some _) => true
  | _ => false

/-- What a successful match of a token list means, declaratively: the matched
characters decompose token by token, with every star consuming a run of
characters of its class. -/
def TokSpec : List Tok → PyStr → Prop
  | [], l => l = []
  | Tok.one p :: ts, l => ∃ c l2, l = c :: l2 ∧ p c = true ∧ TokSpec ts l2
  | Tok.star p :: ts, l => ∃ l1 l2, l = l1 ++ l2 ∧ (∀ c ∈ l1, p c = true) ∧ TokSpec ts l2
  | Tok.starL p :: ts, l => ∃ l1 l2, l = l1 ++ l2 ∧ (∀ c ∈ l1, p c = true) ∧ TokSpec ts l2

/-! ### Generic list facts -/

theorem takeAddSplit {α : Type} (m n : Nat) :
    ∀ l : List α, l.take (m + n) = l.take m ++ (l.drop m).take n := by
  induction m with
  | zero => intro l; simp
  | succ m ih =>
    intro l
    cases l with
    | nil => simp
    | cons c t => simp [Nat.succ_add, ih]

/-! ### merge_files (claims C6 and C10) -/

theorem firstLineSplit_eq (hdr b : PyStr) (h : '\n' ∉ hdr) :
    firstLineSplit (hdr ++ '\n' :: b) = (hdr ++ ['\n'], b) := by
  induction hdr with
  | nil => simp [firstLineSplit]
  | cons c t ih =>
    have hc : c ≠ '\n' := fun e => h (e ▸ List.mem_cons_self c t)
    have ht : '\n' ∉ t := fun m => h (List.mem_cons_of_mem c m)
    simp [firstLineSplit, hc, ih ht]

/-- C6: merging a non-empty list of files that all start with the same header
line, with header-deduplication on, writes that header line once followed by
the bodies (first line stripped from every file) in order, and raises no
error. -/
theorem C6_merge_header (hdr : PyStr) (bodies : List PyStr) (h1 : bodies ≠ [])
    (h2 : '\n' ∉ hdr) :
    merge_files (bodies.map (fun b => hdr ++ '\n' :: b)) true =
      ⟨hdr ++ '\n' :: bodies.flatten, none⟩ := by
  cases bodies with
  | nil => exact absurd rfl h1
  | cons b0 rest =>
    have hsnd : ∀ b : PyStr, (firstLineSplit (hdr ++ '\n' :: b)).2 = b := by
      intro b; rw [firstLineSplit_eq _ _ h2]
    have hcomp : ((fun f : PyStr => (firstLineSplit f).2) ∘ fun b : PyStr => hdr ++ '\n' :: b)
        = id := funext fun b => hsnd b
    simp [merge_files, firstLineSplit_eq _ _ h2, hsnd, List.map_map, hcomp]

/-- C6 witness: the claim's own example, header `h` and bodies `a1`, `b1`. -/
theorem C6_merge_header_witness :
    merge_files [['h', '\n', 'a', '1', '\n'], ['h', '\n', 'b', '1', '\n']] true =
      ⟨['h', '\n', 'a', '1', '\n', 'b', '1', '\n'], none⟩ := by
  have := C6_merge_header ['h'] [['a', '1', '\n'], ['b', '1', '\n']]
    (by decide) (by decide)
  simpa using this

/-- C10: `merge_files` on an empty file list with header-deduplication opens
(truncates) the output and then raises `IndexError` indexing the first input
file, leaving the output in existence but empty. -/
theorem C10_merge_empty : merge_files [] true = ⟨[], some PyErr.indexError⟩ := rfl

/-! ### get_ids_from_row never raises? (claim C1) -/

/-- C1: the row-level extractor does raise.  A row whose `cazy_id` (or
`cazy_hits`) column holds a non-missing value makes `get_ids_from_row` raise
`NameError` — the `cazy_id` branch reads the undefined global name `cazy_id`
and the `cazy_hits` branch iterates the undefined name `frame` — contradicting
the documented invariant that extraction is best-effort and never raises. -/
theorem C1_cazy_row_raises :
    get_ids_from_row
        ⟨none, none, none, none, none, some (some ['G', 'H', '1', '3', '_', '2']), none, none⟩ =
      Except.error PyErr.nameError ∧
    get_ids_from_row
        ⟨none, none, none, none, none, none, some (some ['[', 'G', 'H', '1', '3', ']']), none⟩ =
      Except.error PyErr.nameError :=
  ⟨rfl, rfl⟩

/-! ### get_ordered_uniques (claim C4) -/

theorem gouGo_eq_dedupGo {α : Type} [DecidableEq α] (isna : α → Bool) :
    ∀ (l seen1 seen2 : List α), (∀ x, isna x = false → (x ∈ seen1 ↔ x ∈ seen2)) →
      gouGo isna seen1 l = dedupGo seen2 (l.filter (fun x => !isna x)) := by
  intro l
  induction l with
  | nil => intro s1 s2 _; simp [gouGo, dedupGo]
  | cons x xs ih =>
    intro s1 s2 h
    by_cases hna : isna x = true
    · have hf : (x :: xs).filter (fun y => !isna y) = xs.filter (fun y => !isna y) := by
        simp [List.filter_cons, hna]
      rw [hf]
      by_cases hm : x ∈ s1
      · simpa [gouGo, hm] using ih s1 s2 h
      · have harg : ∀ y, isna y = false → (y ∈ x :: s1 ↔ y ∈ s2) := by
          intro y hy
          rw [List.mem_cons]
          constructor
          · rintro (rfl | hmem)
            · rw [hna] at hy; cases hy
            · exact (h y hy).1 hmem
          · intro hmem; exact Or.inr ((h y hy).2 hmem)
        simpa [gouGo, hm, hna] using ih (x :: s1) s2 harg
    · have hna' : isna x = false := by revert hna; cases isna x <;> simp
      have hf : (x :: xs).filter (fun y => !isna y) = x :: xs.filter (fun y => !isna y) := by
        simp [List.filter_cons, hna']
      rw [hf]
      by_cases hm : x ∈ s1
      · have hm2 : x ∈ s2 := (h x hna').1 hm
        simpa [gouGo, dedupGo, hm, hm2] using ih s1 s2 h
      · have hm2 : x ∉ s2 := fun c => hm ((h x hna').2 c)
        have harg : ∀ y, isna y = false → (y ∈ x :: s1 ↔ y ∈ x :: s2) := by
          intro y hy; simp [List.mem_cons, h y hy]
        simpa [gouGo, dedupGo, hm, hm2, hna'] using ih (x :: s1) (x :: s2) harg

/-- C4 counterexample: the claim says the first NaN-like element appears in
the output; in fact every NaN-like element is dropped, the first included
(the generated `seen_add(x)` call is short-circuit evaluated before the
`pd.isna(x)` test, which then filters the element out). -/
theorem C4_counterexample :
    get_ordered_uniques (fun o : Option Nat => o.isNone) [none, some 1] = [some 1] ∧
      (none : Option Nat) ∉
        get_ordered_uniques (fun o : Option Nat => o.isNone) [none, some 1] := by
  decide

/-- C4 (amended): `get_ordered_uniques` returns the unique non-NaN elements in
first-seen order, dropping every NaN-like value (not only the ones after the
first); on NaN-free input this is plain order-preserving deduplication. -/
theorem C4_uniques_amended {α : Type} [DecidableEq α] (isna : α → Bool) (seq : List α) :
    get_ordered_uniques isna seq = orderedUniquesSpec isna seq :=
  gouGo_eq_dedupGo isna seq [] [] (fun _ _ => Iff.rfl)

/-- C4 witness: the NaN-free example `[3, 1, 3, 2, 1]` de-duplicates to
`[3, 1, 2]`. -/
theorem C4_uniques_amended_witness :
    get_ordered_uniques (fun o : Option Nat => o.isNone)
        [some 3, some 1, some 3, some 2, some 1] =
      orderedUniquesSpec (fun o : Option Nat => o.isNone)
        [some 3, some 1, some 3, some 2, some 1] ∧
    get_ordered_uniques (fun o : Option Nat => o.isNone)
        [some 3, some 1, some 3, some 2, some 1] = [some 3, some 1, some 2] :=
  ⟨C4_uniques_amended _ _, by decide⟩

/-! ### remove_prefix / remove_suffix (claim C7) -/

/-- C7 counterexample: with the empty suffix, `text.endswith('')` holds and
`text[:-1*0]` is `text[:0]`, the empty string — so the claimed
`result ++ suffix = text` fails. -/
theorem C7_counterexample :
    remove_suffix ['a', 'b', 'c'] [] ++ ([] : PyStr) ≠ ['a', 'b', 'c'] := by
  decide

/-- C7 (amended): `remove_prefix` strips a present literal prefix and is the
identity otherwise (empty prefix included); `remove_suffix` does the same for
a present NON-EMPTY suffix and is the identity when the suffix is absent, but
for the empty suffix it returns the empty string (the Python slice
`text[:-0]` is `text[:0]`). -/
theorem C7_affix_amended (text pre suf : PyStr) :
    (py_startswith text pre = true → pre ++ remove_prefix text pre = text) ∧
    (py_startswith text pre = false → remove_prefix text pre = text) ∧
    (suf ≠ [] → py_endswith text suf = true → remove_suffix text suf ++ suf = text) ∧
    (py_endswith text suf = false → remove_suffix text suf = text) ∧
    remove_suffix text [] = [] := by
  refine ⟨?_, ?_, ?_, ?_, ?_⟩
  · intro h
    obtain ⟨t, rfl⟩ := List.isPrefixOf_iff_prefix.mp h
    simp [ remove_prefix, h, List.drop_left]
  · intro h
    simp [ remove_prefix, h]
  · intro hne h
    obtain ⟨p, rfl⟩ := List.isSuffixOf_iff_suffix.mp h
    have hlen : suf.length ≠ 0 := fun e => hne (List.length_eq_zero.mp e)
    have htake : (p ++ suf).length - suf.length = p.length := by simp
    simp [remove_suffix, h, hlen, htake, List.take_left]
  · intro h
    simp [remove_suffix, h]
  · simp [remove_suffix, py_endswith]

/-- C7 witness: the spec's example strings. -/
theorem C7_affix_amended_witness :
    ['a', 'b', 'c'] ++ remove_prefix ['a', 'b', 'c', 'd', 'e', 'f'] ['a', 'b', 'c'] =
      ['a', 'b', 'c', 'd', 'e', 'f'] ∧
    remove_suffix ['a', 'b', 'c', 'd', 'e', 'f'] ['d', 'e', 'f'] ++ ['d', 'e', 'f'] =
      ['a', 'b', 'c', 'd', 'e', 'f'] :=
  ⟨(C7_affix_amended ['a', 'b', 'c', 'd', 'e', 'f'] ['a', 'b', 'c'] ['d', 'e', 'f']).1
      (by decide),
   (C7_affix_amended ['a', 'b', 'c', 'd', 'e', 'f'] ['a', 'b', 'c'] ['d', 'e', 'f']).2.2.1
      (by decide) (by decide)⟩

/-! ### run_process (claim C5) -/

/-- C5 counterexample: when the invocation itself fails to launch, the claim
requires a critical log including the command and stderr, and (with
stop-on-error disabled) a normal return; the code catches only
`CalledProcessError`, so the launch failure propagates with no log record and
no normal return. -/
theorem C5_counterexample :
    (run_process ProcBehavior.launchFail ["mmseqs"] false true none false false).log = [] ∧
    (run_process ProcBehavior.launchFail ["mmseqs"] false true none false false).ret =
      Except.error PyErr.osError :=
  ⟨rfl, rfl⟩

/-- C5 (amended): on a completed invocation with non-zero exit code (with
`check` disabled, as all callers leave it), `run_process` logs one critical
record carrying the command and the captured stderr (plus the stdout at debug
level), and raises `SubprocessError` precisely when stop-on-error is enabled;
with stop-on-error disabled it returns normally after the same logging.  An
execution failure of the invocation itself propagates unlogged, whatever
stop-on-error is. -/
theorem C5_run_process_amended (cp : CompletedProcess) (command : List String)
    (shell capture_stdout : Bool) (save_output : Option String)
    (stop_on_error chk stop2 : Bool) (h : cp.returncode ≠ 0) :
    (run_process (ProcBehavior.completes cp) command shell capture_stdout save_output false
        stop_on_error).log =
      [LogEntry.criticalCmdStderr command cp.stderr, LogEntry.debugStdout cp.stdout] ∧
    (stop_on_error = true →
      (run_process (ProcBehavior.completes cp) command shell capture_stdout save_output false
          stop_on_error).ret =
        Except.error (PyErr.subprocessError (" ".intercalate command))) ∧
    (stop_on_error = false →
      (run_process (ProcBehavior.completes cp) command shell capture_stdout save_output false
          stop_on_error).ret =
        Except.ok (if capture_stdout then some cp.stdout else none)) ∧
    (run_process ProcBehavior.launchFail command shell capture_stdout save_output chk
        stop2).ret = Except.error PyErr.osError ∧
    (run_process ProcBehavior.launchFail command shell capture_stdout save_output chk
        stop2).log = [] := by
  have hsub : subprocess_run (ProcBehavior.completes cp) false = Except.ok cp := by
    simp [subprocess_run]
  have hlaunch : subprocess_run ProcBehavior.launchFail chk = Except.error PyErr.osError := rfl
  refine ⟨?_, ?_, ?_, ?_, ?_⟩
  · cases stop_on_error <;> simp [run_process, hsub, h]
  · intro hs; subst hs; simp [run_process, hsub, h]
  · intro hs; subst hs; simp [run_process, hsub, h]
  · simp [run_process, hlaunch]
  · simp [run_process, hlaunch]

/-- C5 witness: a concrete failed command with stop-on-error enabled. -/
theorem C5_run_process_amended_witness :
    (run_process (ProcBehavior.completes ⟨1, "out", "boom"⟩) ["mmseqs"] false true none false
        true).log =
      [LogEntry.criticalCmdStderr ["mmseqs"] "boom", LogEntry.debugStdout "out"] ∧
    (run_process (ProcBehavior.completes ⟨1, "out", "boom"⟩) ["mmseqs"] false true none false
        true).ret = Except.error (PyErr.subprocessError (" ".intercalate ["mmseqs"])) :=
  ⟨(C5_run_process_amended ⟨1, "out", "boom"⟩ ["mmseqs"] false true none true false false
      (by decide)).1,
   (C5_run_process_amended ⟨1, "out", "boom"⟩ ["mmseqs"] false true none true false false
      (by decide)).2.1 rfl⟩

/-! ### divide_chunks (claim C9) -/

theorem chunksGo_flatten {α : Type} (m : Nat) :
    ∀ (fuel : Nat) (l : List α), l.length ≤ fuel → (chunksGo (m + 1) fuel l).flatten = l := by
  intro fuel
  induction fuel with
  | zero =>
    intro l h
    obtain rfl : l = [] := List.length_eq_zero.mp (Nat.le_zero.mp h)
    simp [chunksGo]
  | succ fuel ih =>
    intro l h
    cases l with
    | nil => simp [chunksGo]
    | cons x xs =>
      have hlen : ((x :: xs).drop (m + 1)).length ≤ fuel := by
        simp only [List.length_drop, List.length_cons]
        simp only [List.length_cons] at h
        omega
      have ihd := ih _ hlen
      simp only [List.drop_succ_cons] at ihd
      simp [chunksGo, ihd, List.take_append_drop]

theorem chunksGo_eq_nil_iff {α : Type} (m fuel : Nat) (l : List α) (h : l.length ≤ fuel) :
    chunksGo (m + 1) fuel l = [] ↔ l = [] := by
  cases l with
  | nil => simp [chunksGo]
  | cons x xs =>
    cases fuel with
    | zero => simp at h
    | succ fuel => simp [chunksGo]

theorem chunksGo_dropLast {α : Type} (m : Nat) :
    ∀ (fuel : Nat) (l : List α), l.length ≤ fuel →
      ∀ c ∈ (chunksGo (m + 1) fuel l).dropLast, c.length = m + 1 := by
  intro fuel
  induction fuel with
  | zero =>
    intro l h c
    obtain rfl : l = [] := List.length_eq_zero.mp (Nat.le_zero.mp h)
    simp [chunksGo]
  | succ fuel ih =>
    intro l h c
    cases l with
    | nil => simp [chunksGo]
    | cons x xs =>
      have hlen : ((x :: xs).drop (m + 1)).length ≤ fuel := by
        simp only [List.length_drop, List.length_cons]
        simp only [List.length_cons] at h
        omega
      by_cases hnil : (x :: xs).drop (m + 1) = []
      · have h0 : chunksGo (m + 1) fuel ((x :: xs).drop (m + 1)) = [] :=
          (chunksGo_eq_nil_iff m fuel _ hlen).mpr hnil
        simp only [List.drop_succ_cons] at h0
        simp [chunksGo, h0]
      · have hne : chunksGo (m + 1) fuel ((x :: xs).drop (m + 1)) ≠ [] := by
          rw [Ne, chunksGo_eq_nil_iff m fuel _ hlen]; exact hnil
        have hlong : m + 1 < (x :: xs).length := by
          by_contra hle
          push_neg at hle
          exact hnil (List.drop_eq_nil_of_le hle)
        have ihd := ih _ hlen
        simp only [List.drop_succ_cons] at hne ihd
        simp only [chunksGo, List.take_succ_cons, List.drop_succ_cons]
        rw [List.dropLast_cons_of_ne_nil hne]
        intro hc
        rcases List.mem_cons.mp hc with rfl | hc2
        · simp only [List.length_cons] at hlong
          simp only [List.length_cons, List.length_take]
          omega
        · exact ihd c hc2

theorem chunksGo_getLast {α : Type} (m : Nat) :
    ∀ (fuel : Nat) (l : List α), l.length ≤ fuel → l ≠ [] →
      ∃ last, (chunksGo (m + 1) fuel l).getLast? = some last ∧
        1 ≤ last.length ∧ last.length ≤ m + 1 := by
  intro fuel
  induction fuel with
  | zero =>
    intro l h hne
    exact absurd (List.length_eq_zero.mp (Nat.le_zero.mp h)) hne
  | succ fuel ih =>
    intro l h hne
    cases l with
    | nil => exact absurd rfl hne
    | cons x xs =>
      have hlen : ((x :: xs).drop (m + 1)).length ≤ fuel := by
        simp only [List.length_drop, List.length_cons]
        simp only [List.length_cons] at h
        omega
      by_cases hnil : (x :: xs).drop (m + 1) = []
      · have h0 : chunksGo (m + 1) fuel ((x :: xs).drop (m + 1)) = [] :=
          (chunksGo_eq_nil_iff m fuel _ hlen).mpr hnil
        simp only [List.drop_succ_cons] at h0
        refine ⟨(x :: xs).take (m + 1), ?_, ?_, ?_⟩
        · simp [chunksGo, h0]
        · simp only [List.length_take, List.length_cons]
          omega
        · simp only [List.length_take]
          omega
      · obtain ⟨last, hl, hge, hle⟩ := ih _ hlen hnil
        refine ⟨last, ?_, hge, hle⟩
        simp only [List.drop_succ_cons] at hl
        rcases hrest : chunksGo (m + 1) fuel (xs.drop m) with _ | ⟨r, rs⟩
        · have hnil2 : chunksGo (m + 1) fuel ((x :: xs).drop (m + 1)) = [] := by
            simpa using hrest
          exact absurd ((chunksGo_eq_nil_iff m fuel _ hlen).mp hnil2) hnil
        · rw [hrest] at hl
          simp only [chunksGo, List.drop_succ_cons, hrest, List.getLast?_cons_cons]
          exact hl

/-- C9: for chunk size at least one, `divide_chunks` yields chunks whose
concatenation is the input, every chunk but possibly the last of length
exactly `n`, and (for non-empty input) a last chunk of length between 1 and
`n`. -/
theorem C9_divide_chunks {α : Type} (l : List α) (n : Nat) (hn : 1 ≤ n) :
    ∃ cs, divide_chunks l n = Except.ok cs ∧ cs.flatten = l ∧
      (∀ c ∈ cs.dropLast, c.length = n) ∧
      (l ≠ [] → ∃ last, cs.getLast? = some last ∧ 1 ≤ last.length ∧ last.length ≤ n) := by
  obtain ⟨m, rfl⟩ : ∃ m, n = m + 1 := ⟨n - 1, by omega⟩
  refine ⟨chunksGo (m + 1) l.length l, ?_, ?_, ?_, ?_⟩
  · simp [divide_chunks]
  · exact chunksGo_flatten m l.length l le_rfl
  · exact chunksGo_dropLast m l.length l le_rfl
  · exact fun h => chunksGo_getLast m l.length l le_rfl h

/-! ### Soundness of the regex matcher -/

theorem matchStar_sound (p : Char → Bool) (k : PyStr → Option Nat) :
    ∀ (s : PyStr) (n : Nat), matchStar p k s = some n →
      ∃ j, j ≤ s.length ∧ j ≤ n ∧ (∀ c ∈ s.take j, p c = true) ∧
        k (s.drop j) = some (n - j) := by
  intro s
  induction s with
  | nil =>
    intro n h
    exact ⟨0, by simp, by simp, by simp, by simpa using h⟩
  | cons c s ih =>
    intro n h
    by_cases hp : p c = true
    · simp only [matchStar, hp, if_true] at h
      rcases hms : matchStar p k s with _ | n'
      · rw [hms] at h
        exact ⟨0, by simp, by simp, by simp, by simpa using h⟩
      · rw [hms] at h
        simp only [Option.some.injEq] at h
        obtain ⟨j, hj1, hj2, hall, hk⟩ := ih n' hms
        refine ⟨j + 1, by simpa using Nat.succ_le_succ hj1, by omega, ?_, ?_⟩
        · intro w hw
          rw [List.take_succ_cons] at hw
          rcases List.mem_cons.mp hw with rfl | hw2
          · exact hp
          · exact hall w hw2
        · rw [List.drop_succ_cons]
          rw [← h]
          simpa [Nat.succ_sub_succ] using hk
    · have hp' : p c = false := by revert hp; cases p c <;> simp
      simp only [matchStar, hp', if_false, Bool.false_eq_true] at h
      exact ⟨0, by simp, by simp, by simp, by simpa using h⟩

theorem matchStarL_sound (p : Char → Bool) (k : PyStr → Option Nat) :
    ∀ (s : PyStr) (n : Nat), matchStarL p k s = some n →
      ∃ j, j ≤ s.length ∧ j ≤ n ∧ (∀ c ∈ s.take j, p c = true) ∧
        k (s.drop j) = some (n - j) := by
  intro s
  induction s with
  | nil =>
    intro n h
    exact ⟨0, by simp, by simp, by simp, by simpa using h⟩
  | cons c s ih =>
    intro n h
    rcases hk : k (c :: s) with _ | n''
    · simp only [matchStarL, hk] at h
      by_cases hp : p c = true
      · simp only [hp, if_true] at h
        obtain ⟨n', hms, hn⟩ := Option.map_eq_some'.mp h
        obtain ⟨j, hj1, hj2, hall, hkk⟩ := ih n' hms
        refine ⟨j + 1, by simpa using Nat.succ_le_succ hj1, by omega, ?_, ?_⟩
        · intro w hw
          rw [List.take_succ_cons] at hw
          rcases List.mem_cons.mp hw with rfl | hw2
          · exact hp
          · exact hall w hw2
        · rw [List.drop_succ_cons]
          rw [← hn]
          simpa [Nat.succ_sub_succ] using hkk
      · have hp' : p c = false := by revert hp; cases p c <;> simp
        simp [hp'] at h
    · simp only [matchStarL, hk] at h
      simp only [Option.some.injEq] at h
      subst h
      exact ⟨0, by simp, by simp, by simp, by simpa using hk⟩

theorem matchToks_sound : ∀ (ts : List Tok) (s : PyStr) (n : Nat),
    matchToks ts s = some n → TokSpec ts (s.take n) ∧ n ≤ s.length := by
  intro ts
  induction ts with
  | nil =>
    intro s n h
    simp only [matchToks, Option.some.injEq] at h
    subst h
    exact ⟨by simp [TokSpec], by omega⟩
  | cons t ts ih =>
    intro s n h
    cases t with
    | one p =>
      cases s with
      | nil => simp [matchToks] at h
      | cons c s2 =>
        by_cases hp : p c = true
        · simp only [matchToks, hp, if_true] at h
          obtain ⟨m, hm, hn⟩ := Option.map_eq_some'.mp h
          obtain ⟨hspec, hle⟩ := ih s2 m hm
          subst hn
          refine ⟨?_, by simpa using Nat.succ_le_succ hle⟩
          rw [List.take_succ_cons]
          exact ⟨c, s2.take m, rfl, hp, hspec⟩
        · have hp' : p c = false := by revert hp; cases p c <;> simp
          simp [matchToks, hp'] at h
    | star p =>
      have h' : matchStar p (matchToks ts) s = some n := h
      obtain ⟨j, hj1, hj2, hall, hk⟩ := matchStar_sound p (matchToks ts) s n h'
      obtain ⟨hspec, hle⟩ := ih _ _ hk
      constructor
      · show TokSpec (Tok.star p :: ts) (s.take n)
        refine ⟨s.take j, (s.drop j).take (n - j), ?_, hall, hspec⟩
        have hn : n = j + (n - j) := by omega
        conv_lhs => rw [hn]
        exact takeAddSplit j (n - j) s
      · have hdl : (s.drop j).length = s.length - j := by simp
        rw [hdl] at hle
        omega
    | starL p =>
      have h' : matchStarL p (matchToks ts) s = some n := h
      obtain ⟨j, hj1, hj2, hall, hk⟩ := matchStarL_sound p (matchToks ts) s n h'
      obtain ⟨hspec, hle⟩ := ih _ _ hk
      constructor
      · show TokSpec (Tok.starL p :: ts) (s.take n)
        refine ⟨s.take j, (s.drop j).take (n - j), ?_, hall, hspec⟩
        have hn : n = j + (n - j) := by omega
        conv_lhs => rw [hn]
        exact takeAddSplit j (n - j) s
      · have hdl : (s.drop j).length = s.length - j := by simp
        rw [hdl] at hle
        omega

theorem findAllGo_match (toks : List Tok) (fuel : Nat) (c : Char) (s : PyStr) (n : Nat)
    (h : matchToks toks (c :: s) = some (n + 1)) :
    findAllGo toks (fuel + 1) (c :: s) =
      (c :: s).take (n + 1) :: findAllGo toks fuel ((c :: s).drop (n + 1)) := by
  simp [findAllGo, h]

theorem findAllGo_skip_none (toks : List Tok) (fuel : Nat) (c : Char) (s : PyStr)
    (h : matchToks toks (c :: s) = none) :
    findAllGo toks (fuel + 1) (c :: s) = findAllGo toks fuel s := by
  simp [findAllGo, h]

theorem findAllGo_skip_zero (toks : List Tok) (fuel : Nat) (c : Char) (s : PyStr)
    (h : matchToks toks (c :: s) = some 0) :
    findAllGo toks (fuel + 1) (c :: s) = findAllGo toks fuel s := by
  simp [findAllGo, h]

theorem findAllGo_sound (toks : List Tok) :
    ∀ (fuel : Nat) (s x : PyStr), x ∈ findAllGo toks fuel s →
      ∃ s2 n, matchToks toks s2 = some n ∧ x = s2.take n := by
  intro fuel
  induction fuel with
  | zero =>
    intro s x hx
    cases s <;> simp [findAllGo] at hx
  | succ fuel ih =>
    intro s x hx
    cases s with
    | nil => simp [findAllGo] at hx
    | cons c s =>
      rcases hm : matchToks toks (c :: s) with _ | n
      · rw [findAllGo_skip_none toks fuel c s hm] at hx
        exact ih s x hx
      · cases n with
        | zero =>
          rw [findAllGo_skip_zero toks fuel c s hm] at hx
          exact ih s x hx
        | succ n1 =>
          rw [findAllGo_match toks fuel c s n1 hm] at hx
          rcases List.mem_cons.mp hx with rfl | hx2
          · exact ⟨c :: s, n1 + 1, hm, rfl⟩
          · exact ih _ x hx2

theorem findAll_sound (toks : List Tok) (s x : PyStr) (hx : x ∈ findAll toks s) :
    TokSpec toks x := by
  obtain ⟨s2, n, hm, rfl⟩ := findAllGo_sound toks s.length s x hx
  exact (matchToks_sound toks s2 n hm).1

/-! ### Shape of kegg_hit EC matches (claim C3) -/

theorem ecTokSpec_shape (m : PyStr) (h : TokSpec ecToks m) :
    ∃ (d1 : PyStr) (x1 : Char) (d2 : PyStr) (x2 : Char) (d3 : PyStr) (x3 : Char) (d4 : PyStr),
      m = '[' :: 'E' :: 'C' :: ':' ::
          (d1 ++ x1 :: (d2 ++ x2 :: (d3 ++ x3 :: (d4 ++ [']'])))) ∧
      (∀ c ∈ d1, c.isDigit = true) ∧ (∀ c ∈ d2, c.isDigit = true) ∧
      (∀ c ∈ d3, c.isDigit = true) ∧ (∀ c ∈ d4, c.isDigit = true) ∧
      x1 ≠ '\n' ∧ x2 ≠ '\n' ∧ x3 ≠ '\n' := by
  simp only [ecToks, lit, TokSpec] at h
  obtain ⟨c0, l0, rfl, hc0, c1, l1, rfl, hc1, c2, l2, rfl, hc2, c3, l3, rfl, hc3,
    d1, l4, rfl, hd1, x1, l5, rfl, hx1, d2, l6, rfl, hd2, x2, l7, rfl, hx2,
    d3, l8, rfl, hd3, x3, l9, rfl, hx3, d4, l10, rfl, hd4, cb, l11, rfl, hcb, rfl⟩ := h
  obtain rfl := eq_of_beq hc0
  obtain rfl := eq_of_beq hc1
  obtain rfl := eq_of_beq hc2
  obtain rfl := eq_of_beq hc3
  obtain rfl := eq_of_beq hcb
  have hx1' : x1 ≠ '\n' := by simpa [anyCh] using hx1
  have hx2' : x2 ≠ '\n' := by simpa [anyCh] using hx2
  have hx3' : x3 ≠ '\n' := by simpa [anyCh] using hx3
  exact ⟨d1, x1, d2, x2, d3, x3, d4, rfl, hd1, hd2, hd3, hd4, hx1', hx2', hx3'⟩

/-- C3 counterexample: the cell `"[EC:abc]"` matches the pattern (its dots are
unescaped and its digit runs may be empty), so the identifier `EC:abc` is
emitted although it is not of the claimed form
`EC:<digits>.<digits>.<digits>.<digits>`. -/
theorem C3_counterexample :
    (['E', 'C', ':', 'a', 'b', 'c'] : PyStr) ∈
        get_ids_from_annotation
          ⟨none, none, none, some [some ['[', 'E', 'C', ':', 'a', 'b', 'c', ']']],
            none, none, none, none⟩ ∧
      spec_EC_id ['E', 'C', ':', 'a', 'b', 'c'] = false := by
  decide

/-- C3 (amended): every identifier emitted from the `kegg_hit` column has the
form `EC:` followed by four possibly-empty digit runs separated by three
arbitrary non-newline characters — the separators are not forced to be dots
and the digit runs are not forced non-empty, because the regex's dots are
unescaped and its digit classes are starred. -/
theorem C3_kegg_hit_shape (frame : Frame) (x : PyStr) (hx : x ∈ keggHitIds frame) :
    ∃ (d1 : PyStr) (x1 : Char) (d2 : PyStr) (x2 : Char) (d3 : PyStr) (x3 : Char) (d4 : PyStr),
      x = 'E' :: 'C' :: ':' :: (d1 ++ x1 :: (d2 ++ x2 :: (d3 ++ x3 :: d4))) ∧
      (∀ c ∈ d1, c.isDigit = true) ∧ (∀ c ∈ d2, c.isDigit = true) ∧
      (∀ c ∈ d3, c.isDigit = true) ∧ (∀ c ∈ d4, c.isDigit = true) ∧
      x1 ≠ '\n' ∧ x2 ≠ '\n' ∧ x3 ≠ '\n' := by
  simp only [keggHitIds, List.mem_flatMap, List.mem_map] at hx
  obtain ⟨cell, hcell, mtch, hmem, rfl⟩ := hx
  have hspec := findAll_sound ecToks cell mtch hmem
  obtain ⟨d1, x1, d2, x2, d3, x3, d4, heq, hd1, hd2, hd3, hd4, h1, h2, h3⟩ :=
    ecTokSpec_shape mtch hspec
  refine ⟨d1, x1, d2, x2, d3, x3, d4, ?_, hd1, hd2, hd3, hd4, h1, h2, h3⟩
  subst heq
  simp only [strip1, List.drop_succ_cons, List.drop_zero]
  have hassoc :
      ('E' :: 'C' :: ':' :: (d1 ++ x1 :: (d2 ++ x2 :: (d3 ++ x3 :: (d4 ++ [']'])))) : PyStr) =
        ('E' :: 'C' :: ':' :: (d1 ++ x1 :: (d2 ++ x2 :: (d3 ++ x3 :: d4)))) ++ [']'] := by
    simp [List.cons_append, List.append_assoc]
  rw [hassoc, List.dropLast_concat]

/-- C3 witness: the well-formed tag `[EC:1.1.1.1]` yields `EC:1.1.1.1`, which
has the proved shape. -/
theorem C3_kegg_hit_shape_witness :
    ∃ (d1 : PyStr) (x1 : Char) (d2 : PyStr) (x2 : Char) (d3 : PyStr) (x3 : Char) (d4 : PyStr),
      (['E', 'C', ':', '1', '.', '1', '.', '1', '.', '1'] : PyStr) =
        'E' :: 'C' :: ':' :: (d1 ++ x1 :: (d2 ++ x2 :: (d3 ++ x3 :: d4))) ∧
      (∀ c ∈ d1, c.isDigit = true) ∧ (∀ c ∈ d2, c.isDigit = true) ∧
      (∀ c ∈ d3, c.isDigit = true) ∧ (∀ c ∈ d4, c.isDigit = true) ∧
      x1 ≠ '\n' ∧ x2 ≠ '\n' ∧ x3 ≠ '\n' :=
  C3_kegg_hit_shape
    ⟨none, none, none,
      some [some ['[', 'E', 'C', ':', '1', '.', '1', '.', '1', '.', '1', ']']],
      none, none, none, none⟩
    ['E', 'C', ':', '1', '.', '1', '.', '1', '.', '1'] (by decide)

/-! ### Row-level versus table-level extraction (claim C2) -/

/-- C2 counterexample: on a row whose only recognized column is
`kegg_genes_id = "K00001"`, the row-level extractor iterates the string
character by character (`id_list += row['kegg_genes_id']`), so its result
cannot equal the key set of the table-level Counter, which holds `"K00001"`
after the comma split. -/
theorem C2_counterexample :
    ¬ (∃ L, get_ids_from_row
          ⟨some (some ['K', '0', '0', '0', '0', '1']), none, none, none, none, none, none,
            none⟩ = Except.ok L ∧
        ∀ x : PyStr, x ∈ L ↔
          x ∈ get_ids_from_annotation (rowToFrame
            ⟨some (some ['K', '0', '0', '0', '0', '1']), none, none, none, none, none, none,
              none⟩)) := by
  rintro ⟨L, hok, hiff⟩
  have hrow : get_ids_from_row
      ⟨some (some ['K', '0', '0', '0', '0', '1']), none, none, none, none, none, none, none⟩ =
      Except.ok [['K'], ['0'], ['0'], ['0'], ['0'], ['1']] := rfl
  rw [hrow] at hok
  injection hok with hL
  subst hL
  have hm : (['K', '0', '0', '0', '0', '1'] : PyStr) ∈
      get_ids_from_annotation (rowToFrame
        ⟨some (some ['K', '0', '0', '0', '0', '1']), none, none, none, none, none, none,
          none⟩) := by decide
  have hcontra := (hiff _).mpr hm
  exact absurd hcontra (by decide)

theorem cellVal_of_hasVal_false (o : Option (Option PyStr)) (h : hasVal o = false) :
    cellVal o = none := by
  rcases o with _ | v
  · rfl
  · rcases v with _ | s
    · rfl
    · simp [hasVal] at h

theorem colVals_rowToFrame (o : Option (Option PyStr)) :
    colVals (o.map (fun v => [v])) = (cellVal o).toList := by
  rcases o with _ | v
  · rfl
  · rcases v with _ | s <;> rfl

/-- C2 (amended): the two extractors agree exactly on the `kegg_hit` and
`pfam_hits` columns — when every other recognized column of the row is absent
or missing-valued, `get_ids_from_row` succeeds and returns the same
identifiers as the key set of the table-level Counter on the one-row table.
On the remaining columns they differ: `kegg_genes_id` is iterated character
by character at row level, `ko_id`/`kegg_id`/`peptidase_family` tokens are
not whitespace-stripped at row level, and a non-missing `cazy_id` or
`cazy_hits` value makes the row extractor raise `NameError`. -/
theorem C2_row_frame_agree (row : Row)
    (h1 : hasVal row.kegg_genes_id = false) (h2 : hasVal row.ko_id = false)
    (h3 : hasVal row.kegg_id = false) (h4 : hasVal row.peptidase_family = false)
    (h5 : hasVal row.cazy_id = false) (h6 : hasVal row.cazy_hits = false) :
    ∃ L, get_ids_from_row row = Except.ok L ∧
      ∀ x : PyStr, x ∈ L ↔ x ∈ get_ids_from_annotation (rowToFrame row) := by
  refine ⟨ get_ids_from_annotation (rowToFrame row), ?_, fun x => Iff.rfl⟩
  have e1 := cellVal_of_hasVal_false _ h1
  have e2 := cellVal_of_hasVal_false _ h2
  have e3 := cellVal_of_hasVal_false _ h3
  have e4 := cellVal_of_hasVal_false _ h4
  have e5 := cellVal_of_hasVal_false _ h5
  have e6 := cellVal_of_hasVal_false _ h6
  simp only [get_ids_from_row, get_ids_from_annotation, rowToFrame, splitStripIds,
    keggHitIds, cazyIdIds, cazyEcIds, cazyOldIds, pfamIds, colVals_rowToFrame,
    e1, e2, e3, e4, e5, e6]
  rcases hc4 : cellVal row.kegg_hit with _ | v4 <;>
    rcases hc8 : cellVal row.pfam_hits with _ | v8 <;>
      simp [Option.toList]

/-- C2 witness: a row holding only `kegg_hit = "[EC:1.1.1.1]"` and
`pfam_hits = "[PF00001.20]"`. -/
theorem C2_row_frame_agree_witness :
    ∃ L, get_ids_from_row
        ⟨none, none, none,
          some (some ['[', 'E', 'C', ':', '1', '.', '1', '.', '1', '.', '1', ']']),
          none, none, none,
          some (some ['[', 'P', 'F', '0', '0', '0', '0', '1', '.', '2', '0', ']'])⟩ =
      Except.ok L ∧
      ∀ x : PyStr, x ∈ L ↔
        x ∈ get_ids_from_annotation (rowToFrame
          ⟨none, none, none,
            some (some ['[', 'E', 'C', ':', '1', '.', '1', '.', '1', '.', '1', ']']),
            none, none, none,
            some (some ['[', 'P', 'F', '0', '0', '0', '0', '1', '.', '2', '0', ']'])⟩) :=
  C2_row_frame_agree _ rfl rfl rfl rfl rfl rfl

/-! ### pfam_hits extraction finds every well-formed accession (claim C8) -/

theorem pfamTokSpec_shape (m : PyStr) (h : TokSpec pfamToks m) :
    ∃ (a b c d e x : Char) (es : PyStr),
      m = '[' :: 'P' :: 'F' :: a :: b :: c :: d :: e :: x :: (es ++ [']']) ∧
      a.isDigit = true ∧ b.isDigit = true ∧ c.isDigit = true ∧ d.isDigit = true ∧
      e.isDigit = true ∧ x ≠ '\n' ∧ (∀ y ∈ es, y.isDigit = true) := by
  simp only [pfamToks, lit, TokSpec] at h
  obtain ⟨c0, l0, rfl, hc0, c1, l1, rfl, hc1, c2, l2, rfl, hc2,
    a, l3, rfl, ha, b, l4, rfl, hb, c, l5, rfl, hc,
    d, l6, rfl, hd, e, l7, rfl, he, x, l8, rfl, hx,
    es, l9, rfl, hes, cb, l10, rfl, hcb, rfl⟩ := h
  obtain rfl := eq_of_beq hc0
  obtain rfl := eq_of_beq hc1
  obtain rfl := eq_of_beq hc2
  obtain rfl := eq_of_beq hcb
  have hx' : x ≠ '\n' := by simpa [anyCh] using hx
  exact ⟨a, b, c, d, e, x, es, rfl, ha, hb, hc, hd, he, hx', hes⟩

/-- In a string matched by the pfam pattern, an opening bracket at a position
of at least 1 can only be the any-character at position 8 (the unescaped dot
of the pattern); every other interior position holds `P`, `F`, a digit, or the
closing bracket. -/
theorem pfam_shape_pos (a b c d e x : Char) (es : PyStr)
    (ha : a.isDigit = true) (hb : b.isDigit = true) (hc : c.isDigit = true)
    (hd : d.isDigit = true) (he : e.isDigit = true)
    (hes : ∀ y ∈ es, y.isDigit = true) (k : Nat) (hk1 : 1 ≤ k)
    (hk : ('[' :: 'P' :: 'F' :: a :: b :: c :: d :: e :: x :: (es ++ [']']) : PyStr)[k]? =
      some '[') :
    k = 8 := by
  rcases k with _ | _ | _ | _ | _ | _ | _ | _ | _ | j
  · omega
  · have h' : some 'P' = some '[' := hk
    exact absurd (Option.some.inj h') (by decide)
  · have h' : some 'F' = some '[' := hk
    exact absurd (Option.some.inj h') (by decide)
  · have h' : some a = some '[' := hk
    rw [Option.some.inj h'] at ha
    exact absurd ha (by decide)
  · have h' : some b = some '[' := hk
    rw [Option.some.inj h'] at hb
    exact absurd hb (by decide)
  · have h' : some c = some '[' := hk
    rw [Option.some.inj h'] at hc
    exact absurd hc (by decide)
  · have h' : some d = some '[' := hk
    rw [Option.some.inj h'] at hd
    exact absurd hd (by decide)
  · have h' : some e = some '[' := hk
    rw [Option.some.inj h'] at he
    exact absurd he (by decide)
  · rfl
  · simp only [List.getElem?_cons_succ] at hk
    have hmem : '[' ∈ es ++ [']'] := List.getElem?_mem hk
    rcases List.mem_append.mp hmem with hin | hin
    · exact absurd (hes _ hin) (by decide)
    · exact absurd (List.mem_singleton.mp hin) (by decide)

/-- A pfam match found while scanning cannot extend past the opening bracket
of a later `[PF...` occurrence: in `u ++ '[' :: 'P' :: rest` with `u` non-empty,
any match starting at the front ends within `u`. -/
theorem pfam_no_straddle (u rest : PyStr) (n : Nat) (hu : u ≠ [])
    (h : matchToks pfamToks (u ++ '[' :: 'P' :: rest) = some n) : n ≤ u.length := by
  by_contra hgt
  push_neg at hgt
  obtain ⟨hspec, hnle⟩ := matchToks_sound _ _ _ h
  obtain ⟨a, b, c, d, e, x, es, hm, ha, hb, hc, hd, he, hx, hes⟩ := pfamTokSpec_shape _ hspec
  have hmlen : ((u ++ '[' :: 'P' :: rest).take n).length = 10 + es.length := by
    rw [hm]
    simp [List.length_append]
    omega
  have hmlen2 : ((u ++ '[' :: 'P' :: rest).take n).length = n := by
    simp only [List.length_take]
    simp only [List.length_append, List.length_cons] at hnle
    simp only [List.length_append, List.length_cons]
    omega
  have hk1 : 0 < u.length := List.length_pos.mpr hu
  have hsu : (u ++ '[' :: 'P' :: rest)[u.length]? = some '[' := by
    rw [List.getElem?_append_right (Nat.le_refl u.length)]
    simp
  have hmu : ((u ++ '[' :: 'P' :: rest).take n)[u.length]? = some '[' := by
    rw [List.getElem?_take_of_lt hgt]
    exact hsu
  rw [hm] at hmu
  have h8 : u.length = 8 := pfam_shape_pos a b c d e x es ha hb hc hd he hes u.length hk1 hmu
  have h9n : 9 < n := by omega
  have hsu1 : (u ++ '[' :: 'P' :: rest)[u.length + 1]? = some 'P' := by
    rw [List.getElem?_append_right (Nat.le_succ_of_le (Nat.le_refl u.length))]
    simp
  have hm9 : ((u ++ '[' :: 'P' :: rest).take n)[9]? = some 'P' := by
    rw [List.getElem?_take_of_lt h9n]
    have h99 : u.length + 1 = 9 := by omega
    rw [← h99]
    exact hsu1
  rw [hm] at hm9
  cases es with
  | nil =>
    simp only [List.nil_append, List.getElem?_cons_succ, List.getElem?_cons_zero] at hm9
    exact absurd (Option.some.inj hm9) (by decide)
  | cons y ys =>
    simp only [List.cons_append, List.getElem?_cons_succ, List.getElem?_cons_zero] at hm9
    have hy : y.isDigit = true := hes y (List.mem_cons_self y ys)
    rw [Option.some.inj hm9] at hy
    exact absurd hy (by decide)

theorem matchToks_digits_rb :
    ∀ ds : PyStr, (∀ y ∈ ds, y.isDigit = true) → ∀ v : PyStr,
      matchToks [Tok.star isDigitCh, lit ']'] (ds ++ ']' :: v) = some (ds.length + 1) := by
  intro ds
  induction ds with
  | nil => intro _ v; rfl
  | cons y ys ih =>
    intro hds v
    have hy : isDigitCh y = true := hds y (List.mem_cons_self y ys)
    have hds' : ∀ z ∈ ys, z.isDigit = true := fun z hz => hds z (List.mem_cons_of_mem y hz)
    have ih' : matchStar isDigitCh (matchToks [lit ']']) (ys ++ ']' :: v) =
        some (ys.length + 1) := ih hds' v
    show matchStar isDigitCh (matchToks [lit ']']) (y :: (ys ++ ']' :: v)) =
      some ((y :: ys).length + 1)
    simp [matchStar, hy, ih']

theorem matchToks_one_cons (p : Char → Bool) (ts : List Tok) (c : Char) (s : PyStr)
    (hp : p c = true) :
    matchToks (Tok.one p :: ts) (c :: s) = (matchToks ts s).map (· + 1) := by
  simp [matchToks, hp]

/-- Matching the pfam pattern right at a well-formed accession succeeds and
consumes exactly the accession (the greedy digit star stops at the closing
bracket). -/
theorem matchToks_pfam_at (a b c d e : Char) (ds : PyStr)
    (ha : a.isDigit = true) (hb : b.isDigit = true) (hc : c.isDigit = true)
    (hd : d.isDigit = true) (he : e.isDigit = true)
    (hds : ∀ y ∈ ds, y.isDigit = true) (v : PyStr) :
    matchToks pfamToks
        ('[' :: 'P' :: 'F' :: a :: b :: c :: d :: e :: '.' :: (ds ++ ']' :: v)) =
      some (ds.length + 9 + 1) := by
  have ha' : isDigitCh a = true := ha
  have hb' : isDigitCh b = true := hb
  have hc' : isDigitCh c = true := hc
  have hd' : isDigitCh d = true := hd
  have he' : isDigitCh e = true := he
  simp only [pfamToks, lit]
  rw [matchToks_one_cons (fun x => x == '[') _ '[' _ (by decide)]
  rw [matchToks_one_cons (fun x => x == 'P') _ 'P' _ (by decide)]
  rw [matchToks_one_cons (fun x => x == 'F') _ 'F' _ (by decide)]
  rw [matchToks_one_cons _ _ _ _ ha']
  rw [matchToks_one_cons _ _ _ _ hb']
  rw [matchToks_one_cons _ _ _ _ hc']
  rw [matchToks_one_cons _ _ _ _ hd']
  rw [matchToks_one_cons _ _ _ _ he']
  rw [matchToks_one_cons anyCh _ '.' _ (by decide)]
  have hrb := matchToks_digits_rb ds hds v
  simp only [lit] at hrb
  rw [hrb]
  simp only [Option.map_some', Option.some.injEq]

/-- Scanning any string that contains a well-formed accession
`[PF<5 digits>.<digits>]` reports that accession as one of the matches. -/
theorem pfam_scan (a b c d e : Char) (ds : PyStr)
    (ha : a.isDigit = true) (hb : b.isDigit = true) (hc : c.isDigit = true)
    (hd : d.isDigit = true) (he : e.isDigit = true)
    (hds : ∀ y ∈ ds, y.isDigit = true) :
    ∀ (fuel : Nat) (s u v : PyStr), s.length ≤ fuel →
      s = u ++ ('[' :: 'P' :: 'F' :: a :: b :: c :: d :: e :: '.' :: (ds ++ [']'])) ++ v →
      ('[' :: 'P' :: 'F' :: a :: b :: c :: d :: e :: '.' :: (ds ++ [']'])) ∈
        findAllGo pfamToks fuel s := by
  intro fuel
  induction fuel with
  | zero =>
    intro s u v hle hs
    subst hs
    simp [List.length_append] at hle
  | succ fuel ih =>
    intro s u v hle hs
    subst hs
    cases u with
    | nil =>
      simp only [List.nil_append] at hle ⊢
      have hform :
          ((('[' :: 'P' :: 'F' :: a :: b :: c :: d :: e :: '.' :: (ds ++ [']'])) ++ v :
            PyStr)) =
            '[' :: 'P' :: 'F' :: a :: b :: c :: d :: e :: '.' :: (ds ++ ']' :: v) := by
        simp
      rw [hform]
      have hmatch := matchToks_pfam_at a b c d e ds ha hb hc hd he hds v
      rw [findAllGo_match pfamToks fuel _ _ _ hmatch]
      have htake :
          (('[' :: 'P' :: 'F' :: a :: b :: c :: d :: e :: '.' :: (ds ++ ']' :: v) :
            PyStr)).take (ds.length + 9 + 1) =
            '[' :: 'P' :: 'F' :: a :: b :: c :: d :: e :: '.' :: (ds ++ [']']) := by
        rw [← hform]
        apply List.take_left'
        simp [List.length_append]
      rw [htake]
      exact List.mem_cons_self _ _
    | cons u0 u' =>
      have hcons :
          (((u0 :: u') ++
              ('[' :: 'P' :: 'F' :: a :: b :: c :: d :: e :: '.' :: (ds ++ [']'])) ++ v :
            PyStr)) =
            u0 :: (u' ++
              ('[' :: 'P' :: 'F' :: a :: b :: c :: d :: e :: '.' :: (ds ++ [']'])) ++ v) := by
        simp
      rw [hcons]
      rw [hcons] at hle
      have hlen' :
          (u' ++ ('[' :: 'P' :: 'F' :: a :: b :: c :: d :: e :: '.' :: (ds ++ [']'])) ++
            v).length ≤ fuel := by
        simp only [List.length_cons] at hle
        omega
      rcases hmm : matchToks pfamToks
          (u0 :: (u' ++
            ('[' :: 'P' :: 'F' :: a :: b :: c :: d :: e :: '.' :: (ds ++ [']'])) ++ v)) with
        _ | n
      · rw [findAllGo_skip_none _ _ _ _ hmm]
        exact ih _ u' v hlen' rfl
      · cases n with
        | zero =>
          rw [findAllGo_skip_zero _ _ _ _ hmm]
          exact ih _ u' v hlen' rfl
        | succ n1 =>
          rw [findAllGo_match _ _ _ _ _ hmm]
          by_cases hcase : n1 + 1 ≤ u'.length + 1
          · apply List.mem_cons_of_mem
            have hsplit2 :
                (u0 :: (u' ++
                  ('[' :: 'P' :: 'F' :: a :: b :: c :: d :: e :: '.' :: (ds ++ [']'])) ++ v) :
                  PyStr) =
                  (u0 :: u') ++
                    ((('[' :: 'P' :: 'F' :: a :: b :: c :: d :: e :: '.' :: (ds ++ [']'])) ++
                      v)) := by
              simp
            have hdrop :
                ((u0 :: (u' ++
                  ('[' :: 'P' :: 'F' :: a :: b :: c :: d :: e :: '.' :: (ds ++ [']'])) ++ v) :
                  PyStr)).drop (n1 + 1) =
                  ((u0 :: u').drop (n1 + 1)) ++
                    ('[' :: 'P' :: 'F' :: a :: b :: c :: d :: e :: '.' :: (ds ++ [']'])) ++ v := by
              rw [hsplit2, List.drop_append_of_le_length (by simpa using hcase)]
              simp [List.append_assoc]
            rw [hdrop]
            apply ih _ _ v ?_ rfl
            simp only [List.length_append, List.length_cons, List.length_drop] at hle ⊢
            omega
          · exfalso
            push_neg at hcase
            have hre :
                (u0 :: (u' ++
                  ('[' :: 'P' :: 'F' :: a :: b :: c :: d :: e :: '.' :: (ds ++ [']'])) ++ v) :
                  PyStr) =
                  (u0 :: u') ++ '[' :: 'P' ::
                    ('F' :: a :: b :: c :: d :: e :: '.' :: (ds ++ [']']) ++ v) := by
              simp
            rw [hre] at hmm
            have hbound := pfam_no_straddle (u0 :: u') _ (n1 + 1) (by simp) hmm
            simp only [List.length_cons] at hbound
            omega

/-- The first field of a dot-split: splitting `pre ++ '.' :: rest` with `pre`
dot-free cuts at that dot. -/
theorem pySplitGo_dot (rest : PyStr) :
    ∀ (pre : PyStr) (fuel : Nat) (acc : PyStr), (∀ c ∈ pre, c ≠ '.') →
      pre.length + 1 ≤ fuel →
      ∃ t, pySplitGo ['.'] fuel acc (pre ++ '.' :: rest) = (acc.reverse ++ pre) :: t := by
  intro pre
  induction pre with
  | nil =>
    intro fuel acc _ hf
    cases fuel with
    | zero => omega
    | succ fuel =>
      refine ⟨pySplitGo ['.'] fuel [] rest, ?_⟩
      simp [pySplitGo, List.isPrefixOf]
  | cons p ps ih =>
    intro fuel acc h hf
    cases fuel with
    | zero => simp at hf
    | succ fuel =>
      have hp : p ≠ '.' := h p (List.mem_cons_self p ps)
      have h' : ∀ c ∈ ps, c ≠ '.' := fun c hc => h c (List.mem_cons_of_mem p hc)
      have hbeq : ('.' == p) = false := beq_eq_false_iff_ne.mpr (Ne.symm hp)
      have hpre : (['.'] : PyStr).isPrefixOf (p :: (ps ++ '.' :: rest)) = false := by
        simp [List.isPrefixOf, hbeq]
      obtain ⟨t, ht⟩ := ih fuel (p :: acc) h' (by simp only [List.length_cons] at hf; omega)
      refine ⟨t, ?_⟩
      rw [List.cons_append]
      rw [show pySplitGo ['.'] (fuel + 1) acc (p :: (ps ++ '.' :: rest)) =
        pySplitGo ['.'] fuel (p :: acc) (ps ++ '.' :: rest) by simp [pySplitGo, hpre]]
      rw [ht]
      simp

/-- The value the pfam branch computes from a well-formed accession match:
brackets stripped, then everything before the first dot. -/
theorem pfam_extract_val (a b c d e : Char) (ds : PyStr)
    (ha : a.isDigit = true) (hb : b.isDigit = true) (hc : c.isDigit = true)
    (hd : d.isDigit = true) (he : e.isDigit = true) :
    pyFirst (pySplit ['.']
        (strip1 ('[' :: 'P' :: 'F' :: a :: b :: c :: d :: e :: '.' :: (ds ++ [']'])))) =
      ['P', 'F', a, b, c, d, e] := by
  have hstrip : strip1 ('[' :: 'P' :: 'F' :: a :: b :: c :: d :: e :: '.' :: (ds ++ [']'])) =
      'P' :: 'F' :: a :: b :: c :: d :: e :: '.' :: ds := by
    simp only [strip1, List.drop_succ_cons, List.drop_zero]
    have hassoc :
        ('P' :: 'F' :: a :: b :: c :: d :: e :: '.' :: (ds ++ [']']) : PyStr) =
          ('P' :: 'F' :: a :: b :: c :: d :: e :: '.' :: ds) ++ [']'] := by
      simp
    rw [hassoc, List.dropLast_concat]
  rw [hstrip]
  have hpre : ∀ y ∈ (['P', 'F', a, b, c, d, e] : PyStr), y ≠ '.' := by
    intro y hy
    simp only [List.mem_cons, List.not_mem_nil, or_false] at hy
    rcases hy with rfl | rfl | rfl | rfl | rfl | rfl | rfl
    · decide
    · decide
    · intro hEq; rw [hEq] at ha; exact absurd ha (by decide)
    · intro hEq; rw [hEq] at hb; exact absurd hb (by decide)
    · intro hEq; rw [hEq] at hc; exact absurd hc (by decide)
    · intro hEq; rw [hEq] at hd; exact absurd hd (by decide)
    · intro hEq; rw [hEq] at he; exact absurd he (by decide)
  obtain ⟨t, ht⟩ := pySplitGo_dot ds ['P', 'F', a, b, c, d, e]
    ('P' :: 'F' :: a :: b :: c :: d :: e :: '.' :: ds).length [] hpre
    (by simp [List.length_append])
  have hform : (['P', 'F', a, b, c, d, e] : PyStr) ++ '.' :: ds =
      'P' :: 'F' :: a :: b :: c :: d :: e :: '.' :: ds := by simp
  rw [hform] at ht
  show pyFirst
      (pySplitGo ['.'] ('P' :: 'F' :: a :: b :: c :: d :: e :: '.' :: ds).length []
        ('P' :: 'F' :: a :: b :: c :: d :: e :: '.' :: ds)) = ['P', 'F', a, b, c, d, e]
  rw [ht]
  simp [pyFirst]

theorem list_length_five {l : PyStr} (h : l.length = 5) : ∃ a b c d e, l = [a, b, c, d, e] := by
  rcases l with _ | ⟨a, _ | ⟨b, _ | ⟨c, _ | ⟨d, _ | ⟨e, _ | ⟨f, t⟩⟩⟩⟩⟩⟩
  · simp only [List.length_nil] at h
    omega
  · simp only [List.length_cons, List.length_nil] at h
    omega
  · simp only [List.length_cons, List.length_nil] at h
    omega
  · simp only [List.length_cons, List.length_nil] at h
    omega
  · simp only [List.length_cons, List.length_nil] at h
    omega
  · exact ⟨a, b, c, d, e, rfl⟩
  · simp only [List.length_cons] at h
    omega

/-- C8: every bracketed accession `[PF<ddddd>.<d*>]` occurring in a cell of the
`pfam_hits` column contributes `PF<ddddd>` — brackets stripped and the version
suffix after the first dot removed — to the table-level extraction. -/
theorem C8_pfam_extraction (frame : Frame) (cell u v d5 ds : PyStr)
    (hcell : cell ∈ colVals frame.pfam_hits)
    (hlen : d5.length = 5)
    (hd5 : ∀ y ∈ d5, y.isDigit = true) (hds : ∀ y ∈ ds, y.isDigit = true)
    (hsplit : cell = u ++ ('[' :: 'P' :: 'F' :: (d5 ++ '.' :: (ds ++ [']']))) ++ v) :
    ('P' :: 'F' :: d5) ∈ get_ids_from_annotation frame := by
  obtain ⟨a, b, c, d, e, rfl⟩ := list_length_five hlen
  have ha : a.isDigit = true := hd5 a (by simp)
  have hb : b.isDigit = true := hd5 b (by simp)
  have hc : c.isDigit = true := hd5 c (by simp)
  have hd : d.isDigit = true := hd5 d (by simp)
  have he : e.isDigit = true := hd5 e (by simp)
  have hsplit' : cell =
      u ++ ('[' :: 'P' :: 'F' :: a :: b :: c :: d :: e :: '.' :: (ds ++ [']'])) ++ v := hsplit
  have hfind : ('[' :: 'P' :: 'F' :: a :: b :: c :: d :: e :: '.' :: (ds ++ [']'])) ∈
      findAll pfamToks cell :=
    pfam_scan a b c d e ds ha hb hc hd he hds cell.length cell u v (Nat.le_refl _) hsplit'
  have hval := pfam_extract_val a b c d e ds ha hb hc hd he
  have hpf : (['P', 'F', a, b, c, d, e] : PyStr) ∈ pfamIds frame := by
    simp only [pfamIds, List.mem_flatMap]
    refine ⟨cell, hcell, ?_⟩
    rw [← hval]
    exact List.mem_map_of_mem _ hfind
  simp only [ get_ids_from_annotation, List.mem_append]
  exact Or.inr hpf

/-- C8 witness: a table whose `pfam_hits` column holds `"[PF00001.20]"` yields
`PF00001`. -/
theorem C8_pfam_extraction_witness :
    ('P' :: 'F' :: ['0', '0', '0', '0', '1'] : PyStr) ∈
      get_ids_from_annotation
        ⟨none, none, none, none, none, none, none,
          some [some ['[', 'P', 'F', '0', '0', '0', '0', '1', '.', '2', '0', ']']]⟩ :=
  C8_pfam_extraction
    ⟨none, none, none, none, none, none, none,
      some [some ['[', 'P', 'F', '0', '0', '0', '0', '1', '.', '2', '0', ']']]⟩
    ['[', 'P', 'F', '0', '0', '0', '0', '1', '.', '2', '0', ']'] [] []
    ['0', '0', '0', '0', '1'] ['2', '0'] (by decide) rfl (by decide) (by decide) (by decide)

/-- C9 witness: the spec's example, `[1,2,3,4,5]` in chunks of 2. -/
theorem C9_divide_chunks_witness :
    divide_chunks [1, 2, 3, 4, 5] 2 = Except.ok [[1, 2], [3, 4], [5]] ∧
    (∃ cs, divide_chunks [1, 2, 3, 4, 5] 2 = Except.ok cs ∧ cs.flatten = [1, 2, 3, 4, 5] ∧
      (∀ c ∈ cs.dropLast, c.length = 2) ∧
      ([1, 2, 3, 4, 5] ≠ [] →
        ∃ last, cs.getLast? = some last ∧ 1 ≤ last.length ∧ last.length ≤ 2)) :=
  ⟨rfl, C9_divide_chunks [1, 2, 3, 4, 5] 2 (by decide)⟩

end DRAM
